import Mathlib

/-!
Verification of the Bank_Simulation repository: a discrete-event simulation of a
single-teller bank queue built from three collaborating data structures
(`BinaryHeap`, a `PriorityQueue` facade over it, a linked FIFO `Queue`) plus the
`Event` value type and the arrival/departure state machine in `BankSimApp.cpp`.

Each definition below is a shallow embedding of the corresponding C++ entity:
C++ `int` becomes `ℤ`, throwing `EmptyDataCollectionException` becomes returning
`none`, the heap's dynamic array becomes the list of its live elements
(`elements[0 .. elementCount)`) together with the `capacity` counter, and the
linked FIFO chain becomes the list of its elements from head to tail.
-/

/-! ## Event (src/Event.cpp, include/Event.h) -/

/-- `Event::EventType`, the scoped enum with `ARRIVAL` and `DEPARTURE`. -/
inductive EventType where
  | ARRIVAL : EventType
  | DEPARTURE : EventType
deriving DecidableEq, Repr

/-- The `Event` class: an event type, a time, and a transaction length. -/
structure Event where
  type : EventType
  time : ℤ
  length : ℤ
deriving DecidableEq, Repr

namespace Event

/-- Default constructor `Event::Event()`: ARRIVAL at time 0 with length 0.
This is also the value a C++ `new Event[capacity]` fills unused array slots
with, so it doubles as the `Inhabited` default of the embedding. -/
def defaultEvent : Event := ⟨EventType.ARRIVAL, 0, 0⟩

instance : Inhabited Event := ⟨defaultEvent⟩

/-- Constructor `Event(EventType, int)`: length is initialized to 0. -/
def mk2 (aType : EventType) (aTime : ℤ) : Event := ⟨aType, aTime, 0⟩

/-- Constructor `Event(EventType, int, int)`: the length field is initialized
to `(aType == ARRIVAL) ? aLength : 0`. -/
def mk3 (aType : EventType) (aTime aLength : ℤ) : Event :=
  ⟨aType, aTime, if aType = EventType.ARRIVAL then aLength else 0⟩

/-- `Event::setType`: overwrites the type field and nothing else. -/
def setType (e : Event) (aType : EventType) : Event := { e with type := aType }

/-- `Event::setTime`: overwrites the time field and nothing else. -/
def setTime (e : Event) (aTime : ℤ) : Event := { e with time := aTime }

/-- `Event::setLength`: `length = (type == ARRIVAL) ? aLength : 0`. -/
def setLength (e : Event) (aLength : ℤ) : Event :=
  { e with length := if e.type = EventType.ARRIVAL then aLength else 0 }

/-- `Event::isArrival`: `type == EventType::ARRIVAL`. -/
def isArrival (e : Event) : Bool := e.type = EventType.ARRIVAL

/-- `Event::operator<=`: on equal times, equal kinds compare `true`, and
ARRIVAL compares `true` against DEPARTURE; on distinct times, time order. -/
def le (a rhs : Event) : Bool :=
  if a.time = rhs.time then
    (a.type = rhs.type) || (a.type = EventType.ARRIVAL ∧ rhs.type = EventType.DEPARTURE)
  else
    a.time < rhs.time

/-- `Event::operator<`: `this->time < other.time`, time comparison only. -/
def lt (a other : Event) : Bool := a.time < other.time

/-- `Event::operator>`: `this->time > other.time`, time comparison only. -/
def gt (a other : Event) : Bool := a.time > other.time

/-- The Arrival-only-length invariant of the spec's data model: a DEPARTURE
event carries service length 0. -/
def LengthInv (e : Event) : Prop := e.type = EventType.DEPARTURE → e.length = 0

end Event

/-! ## FIFO Queue (src/Queue.cpp, include/Queue.h)

The C++ queue is a singly linked chain of nodes with `head`, `tail` and a
`size` counter; `items` below is the chain read from `head` to `tail`, so
`size` is `items.length`, the empty queue is `items = []` (head and tail both
null), and a thrown `EmptyDataCollectionException` is `none`. -/

structure Queue (α : Type) where
  items : List α
deriving Repr

namespace Queue

/-- `Queue::Queue()`: size 0, head and tail null. -/
def emptyQueue (α : Type) : Queue α := ⟨[]⟩

/-- `Queue::isEmpty`: `size == 0`. -/
def isEmpty (q : Queue α) : Bool := q.items.length = 0

/-- `Queue::enqueue`: link a new node after `tail` (or make it both head and
tail when empty) and increment `size`; always succeeds. -/
def enqueue (q : Queue α) (newElement : α) : Queue α := ⟨q.items ++ [newElement]⟩

/-- `Queue::dequeue`: throw on empty, else advance `head` past the old front
node and decrement `size` (clearing `tail` when the queue became empty). -/
def dequeue (q : Queue α) : Option (Queue α) :=
  if q.isEmpty then none else some ⟨q.items.tail⟩

/-- `Queue::peek`: throw on empty, else return `head->data` without mutating. -/
def peek (q : Queue α) : Option α :=
  if q.isEmpty then none else q.items.head?

/-- The state a failed `dequeue` leaves behind: the C++ method throws before
touching any link, so an empty queue is returned unchanged. -/
def dequeueD (q : Queue α) : Queue α :=
  match q.dequeue with
  | some q2 => q2
  | none => q

/-- Repeatedly `peek` then `dequeue` until `fuel` runs out or the queue is
empty, collecting the peeked elements in order. -/
def drainQueue : ℕ → Queue α → List α
  | 0, _ => []
  | fuel + 1, q =>
    match q.peek, q.dequeue with
    | some x, some q2 => x :: drainQueue fuel q2
    | _, _ => []

end Queue

/-! ## BinaryHeap (src/BinaryHeap.cpp, include/BinaryHeap.h)

The C++ class template `BinaryHeap<ElementType>` keeps its elements in a
dynamic array of size `capacity` whose live region is
`elements[0 .. elementCount)`; unused slots hold default-constructed values.
The embedding keeps the live region as a `List α` (so `elementCount` is
`elements.length`) together with the `capacity` counter.

The only operations the heap applies to its elements are `operator>`
(`reHeapUp`) and `operator<` (`reHeapDown`).  The program instantiates
`ElementType = Event`, whose `operator<` and `operator>` compare the single
integer field `time` (see `Event.lt` and `Event.gt` above), so the element
comparisons are embedded as comparisons of an integer key `key : α → ℤ`; the
simulation below instantiates `key := Event.time`, which makes
`key a < key b` definitionally the test `Event.lt a b` of the source. -/

structure BinaryHeap (α : Type) where
  elements : List α
  capacity : ℕ
deriving Repr

namespace BinaryHeap

variable {α : Type} [Inhabited α] (key : α → ℤ)

/-- `std::swap(elements[i], elements[j])` on the element array. -/
def hswap (l : List α) (i j : ℕ) : List α :=
  (l.set i (l.getD j default)).set j (l.getD i default)

/-- `indexOfParent = (indexOfChild - 1) / 2`. -/
def par (i : ℕ) : ℕ := (i - 1) / 2

/-- `BinaryHeap::reHeapUp`, with its loop unrolled on a fuel argument: while
the index is positive and the parent compares greater (`operator>`), swap
child and parent and continue from the parent.  `reHeapUp` below supplies
fuel `indexOfChild + 1`, which the loop can never exhaust because the index
strictly decreases. -/
def reHeapUpF : ℕ → List α → ℕ → List α
  | 0, l, _ => l
  | fuel + 1, l, indexOfChild =>
    if 0 < indexOfChild ∧
        key (l.getD (par indexOfChild) default) > key (l.getD indexOfChild default) then
      reHeapUpF fuel (hswap l indexOfChild (par indexOfChild)) (par indexOfChild)
    else l

/-- `BinaryHeap::reHeapUp` as called by `insert`. -/
def reHeapUp (l : List α) (indexOfChild : ℕ) : List α :=
  reHeapUpF key (indexOfChild + 1) l indexOfChild

/-- First stage of `BinaryHeap::reHeapDown`: `indexOfMinChild` after the
left-child test (`elements[left] < elements[min]` with `operator<`). -/
def minChild1 (l : List α) (i : ℕ) : ℕ :=
  if 2 * i + 1 < l.length ∧ key (l.getD (2 * i + 1) default) < key (l.getD i default) then
    2 * i + 1
  else i

/-- Second stage of `BinaryHeap::reHeapDown`: `indexOfMinChild` after the
right-child test. -/
def minChild (l : List α) (i : ℕ) : ℕ :=
  if 2 * i + 2 < l.length ∧
      key (l.getD (2 * i + 2) default) < key (l.getD (minChild1 key l i) default) then
    2 * i + 2
  else minChild1 key l i

/-- `BinaryHeap::reHeapDown`, recursion on a fuel argument: if the smaller
child compares less than the root, swap and recurse there, else stop.
`reHeapDown` below supplies fuel `elements.length`, which the recursion can
never exhaust because the index strictly increases and stays in range. -/
def reHeapDownF : ℕ → List α → ℕ → List α
  | 0, l, _ => l
  | fuel + 1, l, indexOfRoot =>
    if minChild key l indexOfRoot = indexOfRoot then l
    else reHeapDownF fuel (hswap l indexOfRoot (minChild key l indexOfRoot)) (minChild key l indexOfRoot)

/-- `BinaryHeap::reHeapDown` as called by `remove`. -/
def reHeapDown (l : List α) (indexOfRoot : ℕ) : List α :=
  reHeapDownF key l.length l indexOfRoot

/-- `BinaryHeap::getElementCount`. -/
def getElementCount (h : BinaryHeap α) : ℕ := h.elements.length

/-- `BinaryHeap::expandHeap`: double `capacity` and `std::copy` the live
region `elements[0 .. elementCount)` — a straight prefix copy — into the new
array. -/
def expandHeap (h : BinaryHeap α) : BinaryHeap α :=
  { elements := h.elements.take h.elements.length, capacity := 2 * h.capacity }

/-- `BinaryHeap::insert`: expand when `elementCount == capacity`, write the
new element into slot `elementCount`, sift it up, increment the count. -/
def insert (h : BinaryHeap α) (newElement : α) : BinaryHeap α :=
  let h2 := if h.elements.length = h.capacity then expandHeap h else h
  { elements := reHeapUp key (h2.elements ++ [newElement]) h2.elements.length,
    capacity := h2.capacity }

/-- `BinaryHeap::retrieve`: throw on empty, else return `elements[0]` without
mutating. -/
def retrieve (h : BinaryHeap α) : Option α :=
  if h.elements.length = 0 then none else h.elements.head?

/-- `BinaryHeap::remove`: throw on empty, else overwrite `elements[0]` with
the last live element, decrement the count, and sift the new root down when
elements remain. -/
def remove (h : BinaryHeap α) : Option (BinaryHeap α) :=
  if h.elements.length = 0 then none
  else
    let l := (h.elements.set 0 (h.elements.getD (h.elements.length - 1) default)).dropLast
    some { elements := if 0 < l.length then reHeapDown key l 0 else l,
           capacity := h.capacity }

/-- The state a failed `remove` leaves behind: the C++ method throws before
touching the array, so an empty heap is returned unchanged. -/
def removeD (h : BinaryHeap α) : BinaryHeap α :=
  match remove key h with
  | some h2 => h2
  | none => h


/-! ### The heap-order invariant -/

/-- The key of `elements[i]` (out-of-range reads yield the default element,
exactly as the C++ array holds default-constructed values there; the lemmas
below only ever evaluate it in range). -/
def nthKey (l : List α) (i : ℕ) : ℤ := key (l.getD i default)

/-- The class invariant of `BinaryHeap`: every non-root slot compares at
least its parent slot, in the order `operator<`/`operator>` test — that is,
by key. -/
def IsHeap (l : List α) : Prop :=
  ∀ i, i < l.length → 0 < i → nthKey key l (par i) ≤ nthKey key l i

/-- The sift-up loop invariant: the array is heap-ordered everywhere except
possibly at the pair (parent of `j`, `j`), and the element at `j`'s parent is
below all of `j`'s children. -/
def UpExcept (l : List α) (j : ℕ) : Prop :=
  (∀ i, i < l.length → 0 < i → i ≠ j → nthKey key l (par i) ≤ nthKey key l i) ∧
  (0 < j → ∀ c, c < l.length → par c = j → nthKey key l (par j) ≤ nthKey key l c)

/-- The sift-down loop invariant: the array is heap-ordered at every pair
whose parent is not `j`, and the element above `j` is below all of `j`'s
children. -/
def DownExcept (l : List α) (j : ℕ) : Prop :=
  (∀ i, i < l.length → 0 < i → par i ≠ j → nthKey key l (par i) ≤ nthKey key l i) ∧
  (0 < j → ∀ c, c < l.length → par c = j → nthKey key l (par j) ≤ nthKey key l c)

/-! ### Draining the heap by repeated retrieve/remove -/

/-- Repeatedly `retrieve` then `remove` until `fuel` runs out or the heap is
empty, collecting the retrieved elements in order. -/
def drainF : ℕ → BinaryHeap α → List α
  | 0, _ => []
  | fuel + 1, h =>
    match retrieve h, remove key h with
    | some x, some h2 => x :: drainF fuel h2
    | _, _ => []

/-- Retrieve-and-remove the whole heap. -/
def drain (h : BinaryHeap α) : List α := drainF key h.elements.length h

end BinaryHeap

/-- An operation on the heap: an `insert` of a given element, or a `remove`.
The claims quantify over arbitrary sequences of these. -/
inductive HeapOp (α : Type) where
  | insertOp : α → HeapOp α
  | removeOp : HeapOp α

namespace BinaryHeap

variable {α : Type} [Inhabited α] (key : α → ℤ)

/-- Run one operation; a `remove` on an empty heap throws and leaves the heap
unchanged (the claims only apply removes to non-empty heaps anyway). -/
def applyOp (h : BinaryHeap α) : HeapOp α → BinaryHeap α
  | HeapOp.insertOp x => insert key h x
  | HeapOp.removeOp => removeD key h

/-- Run a sequence of insert/remove operations left to right. -/
def applyOps (h : BinaryHeap α) (ops : List (HeapOp α)) : BinaryHeap α :=
  ops.foldl (applyOp key) h

end BinaryHeap

/-! ## PriorityQueue (src/unnamed PriorityQueue.h, PriorityQueue.cpp in
BankSimApp.cpp)

`PriorityQueue<T>` owns exactly one `BinaryHeap<T>` member `minheap`,
constructed with capacity 2, and forwards every operation to it after its own
emptiness guard; the embedding identifies the priority queue with its heap. -/

namespace PriorityQueue

variable {α : Type} [Inhabited α] (key : α → ℤ)

/-- `PriorityQueue::PriorityQueue()`: `minheap(2)`. -/
def pqNew (α : Type) : BinaryHeap α := { elements := [], capacity := 2 }

/-- `PriorityQueue::isEmpty`: `minheap.getElementCount() == 0`. -/
def pqIsEmpty (h : BinaryHeap α) : Bool := BinaryHeap.getElementCount h = 0

/-- `PriorityQueue::enqueue`: `minheap.insert(newElement)`. -/
def pqEnqueue (h : BinaryHeap α) (x : α) : BinaryHeap α := BinaryHeap.insert key h x

/-- `PriorityQueue::dequeue`: throw if empty, else `minheap.remove()`. -/
def pqDequeue (h : BinaryHeap α) : Option (BinaryHeap α) :=
  if pqIsEmpty h then none else BinaryHeap.remove key h

/-- `PriorityQueue::peek`: throw if empty, else `minheap.retrieve()`. -/
def pqPeek (h : BinaryHeap α) : Option α :=
  if pqIsEmpty h then none else BinaryHeap.retrieve h

/-- The state a failed `dequeue` leaves behind: the guard throws before any
mutation, so an empty priority queue is returned unchanged. -/
def pqDequeueD (h : BinaryHeap α) : BinaryHeap α :=
  match pqDequeue key h with
  | some h2 => h2
  | none => h

end PriorityQueue

/-! ## SimulationEngine (src/BankSimApp.cpp)

The engine's mutable state in `main`: the FIFO `bankLine`, the event
`PriorityQueue` (instantiated at `Event`, whose `operator<`/`operator>` compare
the `time` field — so the heap key is `Event.time`), the `tellerAvailable`
flag, `simulationTime`, `cumulativeWaitTime` and `customerCount`.  `eventLog`
records the `(isArrival, time)` pair of each processed event, mirroring the
`outputEventProcessing` lines.  One loop iteration of `main` is `simStep`;
the whole run is `simRun` with enough fuel. -/

/-- `ElementType& Queue::peek()` as used in `processDeparture`, where the
queue is known non-empty; the default element stands for the undefined
reference of the thrown case, which the simulation never reaches. -/
def Queue.peekD {α : Type} [Inhabited α] (q : Queue α) : α :=
  match q.peek with
  | some x => x
  | none => default

structure SimState where
  bankLine : Queue Event
  eventPQ : BinaryHeap Event
  tellerAvailable : Bool
  simulationTime : ℤ
  cumulativeWaitTime : ℤ
  customerCount : ℕ
  eventLog : List (Bool × ℤ)
deriving Repr

/-- `processArrival`: dequeue the arrival being processed from the event
queue; if the bank line is empty and the teller available, schedule a
synthesized departure at `simulationTime + newEvent.getLength()` and mark the
teller busy, otherwise put the customer at the back of the bank line. -/
def processArrival (newEvent : Event) (s : SimState) : SimState :=
  let pq := PriorityQueue.pqDequeueD Event.time s.eventPQ
  if s.bankLine.isEmpty && s.tellerAvailable then
    let departureTime := s.simulationTime + newEvent.length
    let newDepartureEvent := Event.mk2 EventType.DEPARTURE departureTime
    { s with eventPQ := PriorityQueue.pqEnqueue Event.time pq newDepartureEvent,
             tellerAvailable := false }
  else
    { s with eventPQ := pq, bankLine := s.bankLine.enqueue newEvent }

/-- `processDeparture`: dequeue the departure being processed; if customers
wait in the bank line, peek-and-dequeue the front customer, add
`simulationTime - customer.getTime()` to the cumulative wait time and
schedule that customer's departure at `simulationTime + customer.getLength()`;
otherwise mark the teller available. -/
def processDeparture (s : SimState) : SimState :=
  let pq := PriorityQueue.pqDequeueD Event.time s.eventPQ
  if !s.bankLine.isEmpty then
    let customer := Queue.peekD s.bankLine
    let line := Queue.dequeueD s.bankLine
    let waitTime := s.simulationTime - customer.time
    let departureTime := s.simulationTime + customer.length
    let newDepartureEvent := Event.mk2 EventType.DEPARTURE departureTime
    { s with eventPQ := PriorityQueue.pqEnqueue Event.time pq newDepartureEvent,
             bankLine := line,
             cumulativeWaitTime := s.cumulativeWaitTime + waitTime }
  else
    { s with eventPQ := pq, tellerAvailable := true }

/-- One iteration of the `while (!eventPriorityQueue.isEmpty())` loop in
`main`: peek the next event, set `simulationTime` to its time, record the
output line, and dispatch on `isArrival`.  Returns `none` when the queue is
empty, i.e. when the loop exits. -/
def simStep (s : SimState) : Option SimState :=
  match PriorityQueue.pqPeek s.eventPQ with
  | none => none
  | some newEvent =>
    let s1 := { s with
      simulationTime := newEvent.time,
      eventLog := s.eventLog ++ [(newEvent.isArrival, newEvent.time)] }
    if newEvent.isArrival then some (processArrival newEvent s1)
    else some (processDeparture s1)

/-- The state after the input-reading loop of `main`: one ARRIVAL event per
input pair `(arriveTime, processTime)` enqueued in order, teller available,
all counters zero, `customerCount` the number of pairs. -/
def simInit (pairs : List (ℤ × ℤ)) : SimState :=
  { bankLine := Queue.emptyQueue Event,
    eventPQ := pairs.foldl
      (fun pq p =>
        PriorityQueue.pqEnqueue Event.time pq (Event.mk3 EventType.ARRIVAL p.1 p.2))
      (PriorityQueue.pqNew Event),
    tellerAvailable := true,
    simulationTime := 0,
    cumulativeWaitTime := 0,
    customerCount := pairs.length,
    eventLog := [] }

/-- The state reached after `k` loop iterations on the given input, `none`
once the loop has already ended. -/
def reachN (pairs : List (ℤ × ℤ)) : ℕ → Option SimState
  | 0 => some (simInit pairs)
  | k + 1 =>
    match reachN pairs k with
    | some s => simStep s
    | none => none

/-- Run the event loop to completion (with enough fuel). -/
def simRun : ℕ → SimState → SimState
  | 0, s => s
  | fuel + 1, s =>
    match simStep s with
    | some s2 => simRun fuel s2
    | none => s

/-- `averageWaitTime = static_cast<float>(cumulativeWaitTime) / customerCount`,
exact here (the C++ float computation is exact on the small values of the
end-to-end scenarios). -/
def averageWaitTime (s : SimState) : ℚ :=
  (s.cumulativeWaitTime : ℚ) / (s.customerCount : ℚ)

/-- Number of DEPARTURE events stored in the event queue; one such event is
pending exactly while a customer is in service. -/
def countDep (l : List Event) : ℕ :=
  l.countP (fun e => decide (e.type = EventType.DEPARTURE))

/-- The teller/line invariant of the engine: an available teller means an
empty line and no pending departure; a busy teller means exactly one pending
departure (the customer in service). -/
def InvTeller (s : SimState) : Prop :=
  (s.tellerAvailable = true → s.bankLine.items = [] ∧ countDep s.eventPQ.elements = 0) ∧
  (s.tellerAvailable = false → countDep s.eventPQ.elements = 1)

/-- The time invariant of the engine: the event queue is heap-ordered by
time, pending events are not in the past and have non-negative lengths, and
waiting customers arrived no later than the current simulation time. -/
def InvTime (s : SimState) : Prop :=
  BinaryHeap.IsHeap Event.time s.eventPQ.elements ∧
  (∀ e ∈ s.eventPQ.elements, s.simulationTime ≤ e.time ∧ 0 ≤ e.length) ∧
  (∀ e ∈ s.bankLine.items, e.time ≤ s.simulationTime ∧ 0 ≤ e.length)

/-! ### Supporting lemmas about the engine's queue operations -/

namespace Queue

theorem enqueue_items (q : Queue α) (x : α) : (q.enqueue x).items = q.items ++ [x] :=
  rfl

theorem foldl_enqueue_items (xs : List α) (q : Queue α) :
    (xs.foldl enqueue q).items = q.items ++ xs := by
  induction xs generalizing q with
  | nil => simp
  | cons x xs ih => simp [List.foldl_cons, ih, enqueue_items]

theorem drainQueue_items (q : Queue α) : drainQueue q.items.length q = q.items := by
  obtain ⟨l⟩ := q
  induction l with
  | nil => rfl
  | cons x xs ih =>
    simp only [List.length_cons, drainQueue, peek, dequeue, isEmpty]
    norm_num
    exact ih


end Queue

namespace BinaryHeap

variable {α : Type} [Inhabited α] (key : α → ℤ)

/-! ### List-index helpers for the element array -/

theorem getD_set_self (l : List α) (i : ℕ) (a : α) (h : i < l.length) :
    (l.set i a).getD i default = a := by
  rw [List.getD_eq_getElem _ _ (by simpa using h), List.getElem_set]
  simp

theorem getD_set_of_ne (l : List α) {i j : ℕ} (hne : i ≠ j) (a : α) :
    (l.set i a).getD j default = l.getD j default := by
  by_cases hj : j < l.length
  · rw [List.getD_eq_getElem _ _ (by simpa using hj), List.getD_eq_getElem _ _ hj]
    exact List.getElem_set_ne hne _
  · rw [List.getD_eq_default _ _ (by simpa using Nat.le_of_not_lt hj),
      List.getD_eq_default _ _ (Nat.le_of_not_lt hj)]

theorem set_getD_self (l : List α) {i : ℕ} (h : i < l.length) :
    l.set i (l.getD i default) = l := by
  apply List.ext_getElem (by simp)
  intro n h1 h2
  rw [List.getElem_set]
  split
  · next heq => subst heq; exact List.getD_eq_getElem _ _ h
  · rfl

theorem length_hswap (l : List α) (i j : ℕ) : (hswap l i j).length = l.length := by
  simp [hswap]

theorem getD_hswap_fst (l : List α) {i j : ℕ} (hi : i < l.length) (hne : i ≠ j) :
    (hswap l i j).getD i default = l.getD j default := by
  unfold hswap
  rw [getD_set_of_ne _ (Ne.symm hne), getD_set_self _ _ _ hi]

theorem getD_hswap_snd (l : List α) {i j : ℕ} (hj : j < l.length) :
    (hswap l i j).getD j default = l.getD i default := by
  unfold hswap
  rw [getD_set_self _ _ _ (by simpa using hj)]

theorem getD_hswap_other (l : List α) {i j x : ℕ} (hx1 : x ≠ i) (hx2 : x ≠ j) :
    (hswap l i j).getD x default = l.getD x default := by
  unfold hswap
  rw [getD_set_of_ne _ (Ne.symm hx2), getD_set_of_ne _ (Ne.symm hx1)]

theorem getD_cons_set_perm :
    ∀ (t : List α) (k : ℕ) (a : α), k < t.length →
      (t.getD k default :: t.set k a).Perm (a :: t) := by
  intro t
  induction t with
  | nil => intro k a hk; simp at hk
  | cons b t' ih =>
    intro k a hk
    cases k with
    | zero =>
      simp only [List.getD_cons_zero, List.set_cons_zero]
      exact List.Perm.swap a b t'
    | succ k' =>
      simp only [List.getD_cons_succ, List.set_cons_succ]
      have h1 : (t'.getD k' default :: b :: t'.set k' a).Perm
          (b :: t'.getD k' default :: t'.set k' a) := List.Perm.swap b _ _
      have h2 : (b :: t'.getD k' default :: t'.set k' a).Perm (b :: a :: t') :=
        (ih k' a (by simpa using hk)).cons b
      exact (h1.trans h2).trans (List.Perm.swap a b t')

theorem hswap_perm_lt :
    ∀ (l : List α) (i j : ℕ), i < j → j < l.length → (hswap l i j).Perm l := by
  intro l
  induction l with
  | nil => intro i j h1 h2; simp at h2
  | cons a t ih =>
    intro i j h1 h2
    cases i with
    | zero =>
      cases j with
      | zero => omega
      | succ k =>
        show ((((a :: t).set 0 ((a :: t).getD (k + 1) default)).set (k + 1)
            ((a :: t).getD 0 default)).Perm (a :: t))
        simp only [List.getD_cons_succ, List.getD_cons_zero, List.set_cons_zero,
          List.set_cons_succ]
        exact getD_cons_set_perm t k a (by simpa using h2)
    | succ i' =>
      cases j with
      | zero => omega
      | succ j' =>
        show ((((a :: t).set (i' + 1) ((a :: t).getD (j' + 1) default)).set (j' + 1)
            ((a :: t).getD (i' + 1) default)).Perm (a :: t))
        simp only [List.getD_cons_succ, List.set_cons_succ]
        exact (ih i' j' (by omega) (by simpa using h2)).cons a

theorem hswap_perm (l : List α) (i j : ℕ) (hi : i < l.length) (hj : j < l.length) :
    (hswap l i j).Perm l := by
  rcases lt_trichotomy i j with h | h | h
  · exact hswap_perm_lt l i j h hj
  · subst h
    unfold hswap
    rw [List.set_set, set_getD_self l hi]
  · have hrw : hswap l i j = hswap l j i := by
      unfold hswap
      exact List.set_comm _ _ l (by omega)
    rw [hrw]
    exact hswap_perm_lt l j i h hi

/-! ### Arithmetic facts about the parent index -/

theorem par_lt {i : ℕ} (h : 0 < i) : par i < i := by
  unfold par; omega

theorem lt_of_par_eq {i j : ℕ} (hne : i ≠ j) (h : par i = j) : j < i := by
  unfold par at h; omega

theorem lt_of_par_eq_pos {i j : ℕ} (hj : 0 < j) (h : par i = j) : j < i := by
  unfold par at h; omega

theorem child_eq {i : ℕ} (h : 0 < i) : i = 2 * par i + 1 ∨ i = 2 * par i + 2 := by
  unfold par; omega

theorem par_left (j : ℕ) : par (2 * j + 1) = j := by
  unfold par; omega

theorem par_right (j : ℕ) : par (2 * j + 2) = j := by
  unfold par; omega

theorem isHeap_nil : IsHeap key ([] : List α) := by
  intro i hi
  simp at hi

theorem nthKey_hswap_fst (l : List α) {i j : ℕ} (hi : i < l.length) (hne : i ≠ j) :
    nthKey key (hswap l i j) i = nthKey key l j := by
  unfold nthKey
  rw [getD_hswap_fst l hi hne]

theorem nthKey_hswap_snd (l : List α) {i j : ℕ} (hj : j < l.length) :
    nthKey key (hswap l i j) j = nthKey key l i := by
  unfold nthKey
  rw [getD_hswap_snd l hj]

theorem nthKey_hswap_other (l : List α) {i j x : ℕ} (hx1 : x ≠ i) (hx2 : x ≠ j) :
    nthKey key (hswap l i j) x = nthKey key l x := by
  unfold nthKey
  rw [getD_hswap_other l hx1 hx2]

theorem isHeap_root_min {l : List α} (hl : IsHeap key l) :
    ∀ i, i < l.length → nthKey key l 0 ≤ nthKey key l i := by
  intro i
  induction i using Nat.strong_induction_on with
  | _ i ih =>
    intro hi
    rcases Nat.eq_zero_or_pos i with h0 | hpos
    · subst h0; exact le_refl _
    · exact le_trans (ih (par i) (par_lt hpos) (lt_trans (par_lt hpos) hi)) (hl i hi hpos)

theorem isHeap_head_le {l : List α} (hl : IsHeap key l) {x : α} (hx : x ∈ l) :
    nthKey key l 0 ≤ key x := by
  obtain ⟨n, hn, hget⟩ := List.mem_iff_getElem.mp hx
  have h := isHeap_root_min key hl n hn
  rwa [show nthKey key l n = key x by rw [nthKey, List.getD_eq_getElem _ _ hn, hget]] at h

/-! ### `reHeapUp` restores the invariant after `insert` -/

theorem reHeapUpF_isHeap :
    ∀ (fuel : ℕ) (l : List α) (j : ℕ), j < fuel → j < l.length →
      UpExcept key l j → IsHeap key (reHeapUpF key fuel l j) := by
  intro fuel
  induction fuel with
  | zero => intro l j hfuel; omega
  | succ f ih =>
    intro l j hfuel hj hex
    rw [reHeapUpF]
    split_ifs with hcond
    · obtain ⟨hj0, hgt⟩ := hcond
      have hgt2 : nthKey key l j < nthKey key l (par j) := hgt
      have hplt : par j < j := par_lt hj0
      have hswlen : (hswap l j (par j)).length = l.length := length_hswap l j (par j)
      apply ih (hswap l j (par j)) (par j) (by omega) (by omega)
      constructor
      · intro i hi hi0 hip
        rw [hswlen] at hi
        by_cases hij : i = j
        · subst hij
          rw [show par i = par i from rfl, nthKey_hswap_snd key l (by omega),
            nthKey_hswap_fst key l hj (by omega)]
          exact le_of_lt hgt2
        · by_cases hpij : par i = j
          · have hji : j < i := lt_of_par_eq hij hpij
            rw [hpij, nthKey_hswap_fst key l hj (by omega),
              nthKey_hswap_other key l hij (by omega)]
            exact hex.2 hj0 i hi hpij
          · by_cases hpip : par i = par j
            · rw [hpip, nthKey_hswap_snd key l (by omega),
                nthKey_hswap_other key l hij (by omega)]
              have h1 : nthKey key l (par i) ≤ nthKey key l i := hex.1 i hi hi0 hij
              rw [hpip] at h1
              exact le_trans (le_of_lt hgt2) h1
            · rw [nthKey_hswap_other key l (by omega) (by omega),
                nthKey_hswap_other key l hij (by omega)]
              exact hex.1 i hi hi0 hij
      · intro hp0 c hc hpc
        rw [hswlen] at hc
        have hplp : par (par j) < par j := par_lt hp0
        have hcgt : par j < c := lt_of_par_eq_pos hp0 hpc
        rw [nthKey_hswap_other key l (show par (par j) ≠ j by omega) (by omega)]
        by_cases hcj : c = j
        · rw [hcj, nthKey_hswap_fst key l hj (by omega)]
          exact hex.1 (par j) (by omega) hp0 (by omega)
        · rw [nthKey_hswap_other key l hcj (by omega)]
          have h1 : nthKey key l (par c) ≤ nthKey key l c :=
            hex.1 c hc (by omega) hcj
          rw [hpc] at h1
          exact le_trans (hex.1 (par j) (by omega) hp0 (by omega)) h1
    · intro i hi hi0
      by_cases hij : i = j
      · subst hij
        rcases not_and_or.mp hcond with h | h
        · omega
        · exact le_of_not_lt h
      · exact hex.1 i hi hi0 hij

/-! ### `reHeapDown` restores the invariant after `remove` -/

/-- Case analysis on `minChild`: either no child improves on the root slot,
or `minChild` names an in-range child whose key is strictly below the root
slot and at most both children. -/
theorem minChild_spec (l : List α) (i : ℕ) :
    (minChild key l i = i ∧
       (2 * i + 1 < l.length → nthKey key l i ≤ nthKey key l (2 * i + 1)) ∧
       (2 * i + 2 < l.length → nthKey key l i ≤ nthKey key l (2 * i + 2))) ∨
    (minChild key l i ≠ i ∧ minChild key l i < l.length ∧ par (minChild key l i) = i ∧
       nthKey key l (minChild key l i) < nthKey key l i ∧
       (2 * i + 1 < l.length → nthKey key l (minChild key l i) ≤ nthKey key l (2 * i + 1)) ∧
       (2 * i + 2 < l.length → nthKey key l (minChild key l i) ≤ nthKey key l (2 * i + 2))) := by
  by_cases h1 : 2 * i + 1 < l.length ∧ key (l.getD (2 * i + 1) default) < key (l.getD i default)
  · have hm1 : minChild1 key l i = 2 * i + 1 := by rw [minChild1, if_pos h1]
    by_cases h2 : 2 * i + 2 < l.length ∧
        key (l.getD (2 * i + 2) default) < key (l.getD (minChild1 key l i) default)
    · have hm : minChild key l i = 2 * i + 2 := by rw [minChild, if_pos h2]
      rw [hm1] at h2
      refine Or.inr ⟨by omega, by rw [hm]; exact h2.1, by rw [hm]; exact par_right i, ?_, ?_, ?_⟩
      · rw [hm]; exact lt_trans h2.2 h1.2
      · intro _; rw [hm]; exact le_of_lt h2.2
      · intro _; rw [hm]
    · have hm : minChild key l i = 2 * i + 1 := by rw [minChild, if_neg h2, hm1]
      rw [hm1] at h2
      refine Or.inr ⟨by omega, by rw [hm]; exact h1.1, by rw [hm]; exact par_left i, ?_, ?_, ?_⟩
      · rw [hm]; exact h1.2
      · intro _; rw [hm]
      · intro hrc
        rw [hm]
        rcases not_and_or.mp h2 with h | h
        · omega
        · exact le_of_not_lt h
  · have hm1 : minChild1 key l i = i := by rw [minChild1, if_neg h1]
    by_cases h2 : 2 * i + 2 < l.length ∧
        key (l.getD (2 * i + 2) default) < key (l.getD (minChild1 key l i) default)
    · have hm : minChild key l i = 2 * i + 2 := by rw [minChild, if_pos h2]
      rw [hm1] at h2
      refine Or.inr ⟨by omega, by rw [hm]; exact h2.1, by rw [hm]; exact par_right i, ?_, ?_, ?_⟩
      · rw [hm]; exact h2.2
      · intro hlc
        rw [hm]
        rcases not_and_or.mp h1 with h | h
        · omega
        · exact le_trans (le_of_lt h2.2) (le_of_not_lt h)
      · intro _; rw [hm]
    · have hm : minChild key l i = i := by rw [minChild, if_neg h2, hm1]
      rw [hm1] at h2
      refine Or.inl ⟨hm, ?_, ?_⟩
      · intro hlc
        rcases not_and_or.mp h1 with h | h
        · omega
        · exact le_of_not_lt h
      · intro hrc
        rcases not_and_or.mp h2 with h | h
        · omega
        · exact le_of_not_lt h

theorem reHeapDownF_isHeap :
    ∀ (fuel : ℕ) (l : List α) (j : ℕ), l.length ≤ fuel + j → j < l.length →
      DownExcept key l j → IsHeap key (reHeapDownF key fuel l j) := by
  intro fuel
  induction fuel with
  | zero => intro l j hfuel hj; omega
  | succ f ih =>
    intro l j hfuel hj hex
    rw [reHeapDownF]
    split_ifs with hm
    · rcases minChild_spec key l j with ⟨_, hlc, hrc⟩ | ⟨hne, _⟩
      · intro i hi hi0
        by_cases hpi : par i = j
        · rcases child_eq hi0 with hch | hch
          · rw [hpi] at hch
            rw [hpi, hch]
            exact hlc (hch ▸ hi)
          · rw [hpi] at hch
            rw [hpi, hch]
            exact hrc (hch ▸ hi)
        · exact hex.1 i hi hi0 hpi
      · exact absurd hm hne
    · rcases minChild_spec key l j with ⟨heq, _⟩ | ⟨hne, hmlen, hpm, hlt, hlc, hrc⟩
      · exact absurd heq hm
      · have hjm : j < minChild key l j := lt_of_par_eq hne hpm
        have hswlen : (hswap l j (minChild key l j)).length = l.length :=
          length_hswap l j (minChild key l j)
        apply ih (hswap l j (minChild key l j)) (minChild key l j) (by omega) (by omega)
        constructor
        · intro i hi hi0 hpi
          rw [hswlen] at hi
          by_cases him : i = minChild key l j
          · subst him
            rw [hpm, nthKey_hswap_fst key l hj (by omega),
              nthKey_hswap_snd key l hmlen]
            exact le_of_lt hlt
          · by_cases hpij : par i = j
            · have hij2 : i ≠ j := by
                intro heq
                rw [heq] at hpij
                have := par_lt (show 0 < j by omega)
                omega
              have hji : j < i := lt_of_par_eq hij2 hpij
              rw [hpij, nthKey_hswap_fst key l hj (by omega),
                nthKey_hswap_other key l (by omega) him]
              rcases child_eq hi0 with hch | hch
              · rw [hpij] at hch
                rw [hch]
                exact hlc (hch ▸ hi)
              · rw [hpij] at hch
                rw [hch]
                exact hrc (hch ▸ hi)
            · by_cases hij : i = j
              · have hpj0 : 0 < j := by
                  by_contra hcon
                  apply hpij
                  rw [hij]
                  have hj0 : j = 0 := by omega
                  rw [hj0]
                  decide
                have hplj : par j < j := par_lt hpj0
                rw [hij, nthKey_hswap_fst key l hj (by omega),
                  nthKey_hswap_other key l (by omega) (by omega)]
                exact hex.2 hpj0 (minChild key l j) hmlen hpm
              · rw [nthKey_hswap_other key l hij him,
                  nthKey_hswap_other key l (by omega) hpi]
                exact hex.1 i hi hi0 hpij
        · intro hm0 c hc hpc
          rw [hswlen] at hc
          have hcm : minChild key l j < c := lt_of_par_eq_pos hm0 hpc
          rw [hpm, nthKey_hswap_fst key l hj (by omega),
            nthKey_hswap_other key l (by omega) (by omega)]
          have h1 : nthKey key l (par c) ≤ nthKey key l c :=
            hex.1 c hc (by omega) (by omega)
          rw [hpc] at h1
          exact h1

/-! ### The sift operations permute the element array -/

theorem reHeapUpF_perm :
    ∀ (fuel : ℕ) (l : List α) (i : ℕ), i < l.length →
      (reHeapUpF key fuel l i).Perm l := by
  intro fuel
  induction fuel with
  | zero => intro l i _; rw [reHeapUpF]
  | succ f ih =>
    intro l i hi
    rw [reHeapUpF]
    split_ifs with hcond
    · have hp : par i < i := par_lt hcond.1
      have h1 := ih (hswap l i (par i)) (par i) (by rw [length_hswap]; omega)
      exact h1.trans (hswap_perm l i (par i) hi (by omega))
    · rfl

theorem reHeapDownF_perm :
    ∀ (fuel : ℕ) (l : List α) (i : ℕ), i < l.length →
      (reHeapDownF key fuel l i).Perm l := by
  intro fuel
  induction fuel with
  | zero => intro l i _; rw [reHeapDownF]
  | succ f ih =>
    intro l i hi
    rw [reHeapDownF]
    split_ifs with hcond
    · rfl
    · rcases minChild_spec key l i with ⟨heq, _⟩ | ⟨hne, hmlen, _⟩
      · exact absurd heq hcond
      · have h1 := ih (hswap l i (minChild key l i)) (minChild key l i)
          (by rw [length_hswap]; omega)
        exact h1.trans (hswap_perm l i (minChild key l i) hi hmlen)

/-! ### Specifications of the public heap operations -/

theorem expandHeap_spec (h : BinaryHeap α) :
    (expandHeap h).elements = h.elements ∧ (expandHeap h).capacity = 2 * h.capacity := by
  constructor
  · show h.elements.take h.elements.length = h.elements
    exact List.take_length h.elements
  · rfl

theorem insert_elements_eq (h : BinaryHeap α) (x : α) :
    (insert key h x).elements =
      reHeapUp key (h.elements ++ [x]) h.elements.length := by
  unfold insert
  simp only
  split_ifs with hfull
  · rw [(expandHeap_spec h).1]
  · rfl

theorem insert_capacity (h : BinaryHeap α) (x : α) :
    (insert key h x).capacity =
      if h.elements.length = h.capacity then 2 * h.capacity else h.capacity := by
  unfold insert
  simp only
  split_ifs with hfull
  · rfl
  · rfl

theorem insert_perm (h : BinaryHeap α) (x : α) :
    (insert key h x).elements.Perm (h.elements ++ [x]) := by
  rw [insert_elements_eq]
  exact reHeapUpF_perm key _ _ _ (by simp)

theorem insert_isHeap (h : BinaryHeap α) (x : α) (hh : IsHeap key h.elements) :
    IsHeap key (insert key h x).elements := by
  rw [insert_elements_eq]
  apply reHeapUpF_isHeap key _ _ _ (by omega) (by simp)
  constructor
  · intro i hi hi0 hine
    have hilt : i < h.elements.length := by
      simp only [List.length_append, List.length_cons, List.length_nil] at hi
      omega
    have hple : par i < h.elements.length := by
      have := par_lt hi0
      omega
    show key ((h.elements ++ [x]).getD (par i) default) ≤
      key ((h.elements ++ [x]).getD i default)
    rw [List.getD_append _ _ _ _ hilt, List.getD_append _ _ _ _ hple]
    exact hh i hilt hi0
  · intro h0 c hc hpc
    have := lt_of_par_eq_pos h0 hpc
    have hcbig : 2 * h.elements.length + 1 ≤ c := by
      have := child_eq (show 0 < c by omega)
      rw [hpc] at this
      omega
    simp only [List.length_append, List.length_cons, List.length_nil] at hc
    omega

theorem getD_dropLast (l : List α) {x : ℕ} (hx : x < l.dropLast.length) :
    l.dropLast.getD x default = l.getD x default := by
  have hxl : x < l.length := by
    rw [List.length_dropLast] at hx
    omega
  rw [List.getD_eq_getElem _ _ hx, List.getD_eq_getElem _ _ hxl]
  simp only [List.dropLast_eq_take]
  exact List.getElem_take l

theorem retrieve_eq_head (h : BinaryHeap α) {e : α} {t : List α}
    (he : h.elements = e :: t) : retrieve h = some e := by
  unfold retrieve
  rw [he]
  simp

theorem remove_of_cons (h : BinaryHeap α) {e : α} {t : List α}
    (he : h.elements = e :: t) :
    ∃ h2, remove key h = some h2 ∧ h2.elements.Perm t ∧ h2.capacity = h.capacity := by
  unfold remove
  rw [he]
  simp only [List.length_cons, Nat.succ_ne_zero, if_false]
  rcases List.eq_nil_or_concat t with ht | ⟨t0, b, ht⟩
  · subst ht
    refine ⟨_, rfl, ?_, rfl⟩
    simp
  · subst ht
    have hget : (e :: t0.concat b).getD ((t0.concat b).length + 1 - 1) default = b := by
      rw [show (t0.concat b).length + 1 - 1 = t0.length + 1 by
        simp [List.concat_eq_append]]
      rw [List.getD_cons_succ, List.concat_eq_append,
        List.getD_append_right _ _ _ _ (le_refl t0.length)]
      simp
    rw [hget, List.set_cons_zero, List.concat_eq_append,
      show b :: (t0 ++ [b]) = (b :: t0) ++ [b] from rfl, List.dropLast_concat]
    have hlen2 : (b :: t0).length = t0.length + 1 := by simp
    refine ⟨_, rfl, ?_, rfl⟩
    simp only [hlen2, Nat.succ_pos, if_pos]
    have hperm1 : (reHeapDown key (b :: t0) 0).Perm (b :: t0) :=
      reHeapDownF_perm key _ _ _ (by simp)
    refine hperm1.trans ?_
    have h2 := @List.perm_middle α b t0 []
    simpa using h2.symm

theorem remove_isHeap (h : BinaryHeap α) (hh : IsHeap key h.elements) {h2 : BinaryHeap α}
    (hr : remove key h = some h2) : IsHeap key h2.elements := by
  unfold remove at hr
  split_ifs at hr with hlen
  simp only [Option.some_inj] at hr
  subst hr
  simp only
  set l := (h.elements.set 0 (h.elements.getD (h.elements.length - 1) default)).dropLast
    with hl
  split_ifs with hpos
  · apply reHeapDownF_isHeap key l.length l 0 (by omega) hpos
    constructor
    · intro i hi hi0 hpi
      have hlenl : l.length = h.elements.length - 1 := by
        rw [hl]
        simp
      have hpil : 0 < par i ∨ par i = 0 := by omega
      have hgd : ∀ x : ℕ, 0 < x → x < l.length →
          l.getD x default = h.elements.getD x default := by
        intro x hx0 hxl
        rw [hl] at hxl ⊢
        rw [getD_dropLast _ hxl]
        exact getD_set_of_ne _ (by omega) _
      show key (l.getD (par i) default) ≤ key (l.getD i default)
      rw [hgd i hi0 hi, hgd (par i) (by omega) (by
        have := par_lt hi0
        omega)]
      exact hh i (by omega) hi0
    · intro h0
      omega
  · intro i hi hi0
    omega

theorem drainF_spec :
    ∀ (fuel : ℕ) (h : BinaryHeap α), h.elements.length = fuel →
      IsHeap key h.elements →
      (drainF key fuel h).Perm h.elements ∧
      List.Sorted (fun a b => key a ≤ key b) (drainF key fuel h) := by
  intro fuel
  induction fuel with
  | zero =>
    intro h hlen _
    have : h.elements = [] := List.length_eq_zero.mp hlen
    rw [drainF, this]
    exact ⟨List.Perm.refl [], List.sorted_nil⟩
  | succ f ih =>
    intro h hlen hh
    obtain ⟨e, t, he⟩ := List.exists_cons_of_ne_nil
      (show h.elements ≠ [] by intro hc; rw [hc] at hlen; simp at hlen)
    obtain ⟨h2, hr, hperm, _⟩ := remove_of_cons key h he
    have hlent : t.length = f := by
      rw [he] at hlen
      simpa using hlen
    have hlen2 : h2.elements.length = f := by
      rw [hperm.length_eq, hlent]
    have hh2 : IsHeap key h2.elements := remove_isHeap key h hh hr
    obtain ⟨ihp, ihs⟩ := ih h2 hlen2 hh2
    have hd : drainF key (f + 1) h = e :: drainF key f h2 := by
      rw [drainF, retrieve_eq_head h he, hr]
    constructor
    · rw [hd, he]
      exact (ihp.trans hperm).cons e
    · rw [hd, List.sorted_cons]
      refine ⟨?_, ihs⟩
      intro y hy
      have hyt : y ∈ t := (hperm.mem_iff).mp ((ihp.mem_iff).mp hy)
      have hym : y ∈ h.elements := by
        rw [he]
        exact List.mem_cons_of_mem e hyt
      have := isHeap_head_le key hh hym
      rwa [show nthKey key h.elements 0 = key e by rw [nthKey, he, List.getD_cons_zero]] at this

theorem drain_spec (h : BinaryHeap α) (hh : IsHeap key h.elements) :
    (drain key h).Perm h.elements ∧
    List.Sorted (fun a b => key a ≤ key b) (drain key h) :=
  drainF_spec key h.elements.length h rfl hh

/-! ### Folding insertions -/

theorem foldl_insert_perm :
    ∀ (xs : List α) (h : BinaryHeap α),
      ((xs.foldl (insert key) h).elements).Perm (h.elements ++ xs) := by
  intro xs
  induction xs with
  | nil => intro h; simp
  | cons x xs ih =>
    intro h
    rw [List.foldl_cons]
    refine (ih (insert key h x)).trans ?_
    have h1 := (insert_perm key h x).append_right xs
    refine h1.trans ?_
    rw [List.append_assoc, List.singleton_append]

theorem foldl_insert_isHeap :
    ∀ (xs : List α) (h : BinaryHeap α), IsHeap key h.elements →
      IsHeap key ((xs.foldl (insert key) h).elements) := by
  intro xs
  induction xs with
  | nil => intro h hh; exact hh
  | cons x xs ih =>
    intro h hh
    rw [List.foldl_cons]
    exact ih (insert key h x) (insert_isHeap key h x hh)

end BinaryHeap

namespace BinaryHeap

variable {α : Type} [Inhabited α] (key : α → ℤ)

theorem applyOp_isHeap (h : BinaryHeap α) (op : HeapOp α) (hh : IsHeap key h.elements) :
    IsHeap key (applyOp key h op).elements := by
  cases op with
  | insertOp x => exact insert_isHeap key h x hh
  | removeOp =>
    unfold applyOp removeD
    cases hr : remove key h with
    | none => exact hh
    | some h2 => exact remove_isHeap key h hh hr

theorem applyOps_isHeap (ops : List (HeapOp α)) :
    ∀ (h : BinaryHeap α), IsHeap key h.elements →
      IsHeap key (applyOps key h ops).elements := by
  induction ops with
  | nil => intro h hh; exact hh
  | cons op ops ih =>
    intro h hh
    rw [applyOps, List.foldl_cons]
    exact ih (applyOp key h op) (applyOp_isHeap key h op hh)


end BinaryHeap

theorem pqPeek_eq_head {α : Type} [Inhabited α] (h : BinaryHeap α) :
    PriorityQueue.pqPeek h = h.elements.head? := by
  unfold PriorityQueue.pqPeek PriorityQueue.pqIsEmpty BinaryHeap.getElementCount
    BinaryHeap.retrieve
  cases h.elements <;> simp

theorem pqDequeue_eq_remove {α : Type} [Inhabited α] (key : α → ℤ) (h : BinaryHeap α)
    (hne : h.elements ≠ []) : PriorityQueue.pqDequeue key h = BinaryHeap.remove key h := by
  unfold PriorityQueue.pqDequeue PriorityQueue.pqIsEmpty BinaryHeap.getElementCount
  have : h.elements.length ≠ 0 := by
    intro hc
    exact hne (List.length_eq_zero.mp hc)
  simp [this]

theorem pqDequeueD_spec {α : Type} [Inhabited α] (key : α → ℤ) (h : BinaryHeap α)
    {e : α} {t : List α} (he : h.elements = e :: t) :
    (PriorityQueue.pqDequeueD key h).elements.Perm t ∧
    (BinaryHeap.IsHeap key h.elements →
      BinaryHeap.IsHeap key (PriorityQueue.pqDequeueD key h).elements) := by
  obtain ⟨h2, hr, hperm, _⟩ := BinaryHeap.remove_of_cons key h he
  have heq : PriorityQueue.pqDequeueD key h = h2 := by
    unfold PriorityQueue.pqDequeueD
    rw [pqDequeue_eq_remove key h (by rw [he]; simp), hr]
  rw [heq]
  exact ⟨hperm, fun hh => BinaryHeap.remove_isHeap key h hh hr⟩

theorem pqEnqueue_perm {α : Type} [Inhabited α] (key : α → ℤ) (h : BinaryHeap α) (x : α) :
    (PriorityQueue.pqEnqueue key h x).elements.Perm (h.elements ++ [x]) :=
  BinaryHeap.insert_perm key h x

theorem pqEnqueue_isHeap {α : Type} [Inhabited α] (key : α → ℤ) (h : BinaryHeap α) (x : α)
    (hh : BinaryHeap.IsHeap key h.elements) :
    BinaryHeap.IsHeap key (PriorityQueue.pqEnqueue key h x).elements :=
  BinaryHeap.insert_isHeap key h x hh

theorem peekD_of_cons {α : Type} [Inhabited α] {q : Queue α} {c : α} {rest : List α}
    (hq : q.items = c :: rest) : Queue.peekD q = c := by
  unfold Queue.peekD Queue.peek Queue.isEmpty
  rw [hq]
  simp

theorem dequeueD_of_cons {α : Type} {q : Queue α} {c : α} {rest : List α}
    (hq : q.items = c :: rest) : (Queue.dequeueD q).items = rest := by
  unfold Queue.dequeueD Queue.dequeue Queue.isEmpty
  rw [hq]
  simp

theorem queue_isEmpty_iff {α : Type} (q : Queue α) : q.isEmpty = true ↔ q.items = [] := by
  unfold Queue.isEmpty
  rw [decide_eq_true_iff, List.length_eq_zero]

/-! ### Counting pending departures -/

theorem countDep_perm {l l2 : List Event} (h : l.Perm l2) : countDep l = countDep l2 :=
  h.countP_eq _

theorem countDep_cons (e : Event) (t : List Event) :
    countDep (e :: t) = countDep t + (if e.type = EventType.DEPARTURE then 1 else 0) := by
  unfold countDep
  rw [List.countP_cons]
  by_cases hdep : e.type = EventType.DEPARTURE
  · simp [hdep]
  · simp [hdep]

theorem countDep_append (l l2 : List Event) :
    countDep (l ++ l2) = countDep l + countDep l2 := by
  unfold countDep
  exact List.countP_append _ _ _

theorem countDep_departure_singleton (t : ℤ) :
    countDep [Event.mk2 EventType.DEPARTURE t] = 1 := rfl

theorem countDep_arrival_cons (e : Event) (t : List Event)
    (he : e.type = EventType.ARRIVAL) : countDep (e :: t) = countDep t := by
  rw [countDep_cons, he]
  simp

/-! ### The initial state of the engine -/

theorem simInit_eventPQ (pairs : List (ℤ × ℤ)) :
    (simInit pairs).eventPQ =
      (pairs.map (fun p => Event.mk3 EventType.ARRIVAL p.1 p.2)).foldl
        (BinaryHeap.insert Event.time) (PriorityQueue.pqNew Event) := by
  show pairs.foldl _ _ = _
  rw [List.foldl_map]
  rfl

theorem simInit_perm (pairs : List (ℤ × ℤ)) :
    (simInit pairs).eventPQ.elements.Perm
      (pairs.map (fun p => Event.mk3 EventType.ARRIVAL p.1 p.2)) := by
  rw [simInit_eventPQ]
  have := BinaryHeap.foldl_insert_perm Event.time
    (pairs.map (fun p => Event.mk3 EventType.ARRIVAL p.1 p.2)) (PriorityQueue.pqNew Event)
  simpa [PriorityQueue.pqNew] using this

theorem simInit_isHeap (pairs : List (ℤ × ℤ)) :
    BinaryHeap.IsHeap Event.time (simInit pairs).eventPQ.elements := by
  rw [simInit_eventPQ]
  exact BinaryHeap.foldl_insert_isHeap Event.time _ _ (BinaryHeap.isHeap_nil Event.time)

theorem simInit_countDep (pairs : List (ℤ × ℤ)) :
    countDep (simInit pairs).eventPQ.elements = 0 := by
  rw [countDep_perm (simInit_perm pairs)]
  induction pairs with
  | nil => rfl
  | cons p ps ih =>
    rw [List.map_cons, countDep_arrival_cons _ _ rfl, ih]

/-! ### One-step characterization of the event loop -/

theorem simStep_none {s : SimState} (hel : s.eventPQ.elements = []) :
    simStep s = none := by
  unfold simStep
  rw [pqPeek_eq_head, hel]
  rfl

theorem simStep_eq_some {s : SimState} {e : Event} {t : List Event}
    (hel : s.eventPQ.elements = e :: t) :
    simStep s = some (if e.isArrival then
        processArrival e
          { s with
            simulationTime := e.time,
            eventLog := s.eventLog ++ [(e.isArrival, e.time)] }
      else
        processDeparture
          { s with
            simulationTime := e.time,
            eventLog := s.eventLog ++ [(e.isArrival, e.time)] }) := by
  unfold simStep
  rw [pqPeek_eq_head, hel]
  simp only [List.head?_cons]
  by_cases harr : e.isArrival
  · rw [if_pos harr, if_pos harr]
  · rw [if_neg harr, if_neg harr]

theorem processArrival_serve (e : Event) (s : SimState)
    (hcond : (s.bankLine.isEmpty && s.tellerAvailable) = true) :
    processArrival e s = { s with
      eventPQ := PriorityQueue.pqEnqueue Event.time
        (PriorityQueue.pqDequeueD Event.time s.eventPQ)
        (Event.mk2 EventType.DEPARTURE (s.simulationTime + e.length)),
      tellerAvailable := false } := by
  unfold processArrival
  rw [if_pos hcond]

theorem processArrival_wait (e : Event) (s : SimState)
    (hcond : ¬ (s.bankLine.isEmpty && s.tellerAvailable) = true) :
    processArrival e s = { s with
      eventPQ := PriorityQueue.pqDequeueD Event.time s.eventPQ,
      bankLine := s.bankLine.enqueue e } := by
  unfold processArrival
  rw [if_neg hcond]

theorem processDeparture_serve (s : SimState)
    (hcond : (!s.bankLine.isEmpty) = true) :
    processDeparture s = { s with
      eventPQ := PriorityQueue.pqEnqueue Event.time
        (PriorityQueue.pqDequeueD Event.time s.eventPQ)
        (Event.mk2 EventType.DEPARTURE (s.simulationTime + (Queue.peekD s.bankLine).length)),
      bankLine := Queue.dequeueD s.bankLine,
      cumulativeWaitTime :=
        s.cumulativeWaitTime + (s.simulationTime - (Queue.peekD s.bankLine).time) } := by
  unfold processDeparture
  rw [if_pos hcond]

theorem processDeparture_idle (s : SimState)
    (hcond : ¬ (!s.bankLine.isEmpty) = true) :
    processDeparture s = { s with
      eventPQ := PriorityQueue.pqDequeueD Event.time s.eventPQ,
      tellerAvailable := true } := by
  unfold processDeparture
  rw [if_neg hcond]

/-! ### The teller/line invariant is preserved -/

theorem simStep_invTeller {s s2 : SimState} (hs : InvTeller s)
    (hstep : simStep s = some s2) : InvTeller s2 := by
  cases hel : s.eventPQ.elements with
  | nil =>
    rw [simStep_none hel] at hstep
    exact absurd hstep (by simp)
  | cons e t =>
    rw [simStep_eq_some hel] at hstep
    have hs2 : s2 = _ := (Option.some_inj.mp hstep).symm
    subst hs2
    set s1 : SimState :=
      { s with
        simulationTime := e.time,
        eventLog := s.eventLog ++ [(e.isArrival, e.time)] } with hs1def
    obtain ⟨hdperm, _⟩ := pqDequeueD_spec Event.time s.eventPQ hel
    by_cases harr : e.isArrival = true
    · rw [if_pos harr]
      have harrT : e.type = EventType.ARRIVAL := by
        unfold Event.isArrival at harr
        exact of_decide_eq_true harr
      by_cases hcond : (s.bankLine.isEmpty && s.tellerAvailable) = true
      · have hcond1 : (s1.bankLine.isEmpty && s1.tellerAvailable) = true := hcond
        rw [processArrival_serve e s1 hcond1]
        rw [Bool.and_eq_true] at hcond
        have hteller : s.tellerAvailable = true := hcond.2
        have hcnt0 : countDep s.eventPQ.elements = 0 := (hs.1 hteller).2
        rw [hel, countDep_cons, harrT] at hcnt0
        simp at hcnt0
        refine ⟨fun h => absurd h (by simp), fun _ => ?_⟩
        show countDep (PriorityQueue.pqEnqueue Event.time
          (PriorityQueue.pqDequeueD Event.time s.eventPQ)
          (Event.mk2 EventType.DEPARTURE (e.time + e.length))).elements = 1
        rw [countDep_perm (pqEnqueue_perm _ _ _), countDep_append,
          countDep_perm hdperm, hcnt0, countDep_departure_singleton]
      · have hcond1 : ¬ (s1.bankLine.isEmpty && s1.tellerAvailable) = true := hcond
        rw [processArrival_wait e s1 hcond1]
        have htellerF : s.tellerAvailable = false := by
          cases ht : s.tellerAvailable
          · rfl
          · exfalso
            apply hcond
            rw [Bool.and_eq_true]
            exact ⟨(queue_isEmpty_iff s.bankLine).mpr (hs.1 ht).1, ht⟩
        have hcnt1 : countDep s.eventPQ.elements = 1 := hs.2 htellerF
        rw [hel, countDep_cons, harrT] at hcnt1
        simp at hcnt1
        refine ⟨fun h => absurd h (by simp [hs1def, htellerF]), fun _ => ?_⟩
        show countDep (PriorityQueue.pqDequeueD Event.time s.eventPQ).elements = 1
        rw [countDep_perm hdperm]
        exact hcnt1
    · rw [if_neg harr]
      have hdepT : e.type = EventType.DEPARTURE := by
        cases htype : e.type with
        | ARRIVAL =>
          exfalso
          apply harr
          unfold Event.isArrival
          rw [htype]
          rfl
        | DEPARTURE => rfl
      have htellerF : s.tellerAvailable = false := by
        cases ht : s.tellerAvailable
        · rfl
        · exfalso
          have hcnt0 := (hs.1 ht).2
          rw [hel, countDep_cons, hdepT] at hcnt0
          simp at hcnt0
      have hcnt1 : countDep s.eventPQ.elements = 1 := hs.2 htellerF
      rw [hel, countDep_cons, hdepT] at hcnt1
      simp at hcnt1
      by_cases hline : (!s.bankLine.isEmpty) = true
      · have hline1 : (!s1.bankLine.isEmpty) = true := hline
        rw [processDeparture_serve s1 hline1]
        refine ⟨fun h => absurd h (by simp [hs1def, htellerF]), fun _ => ?_⟩
        show countDep (PriorityQueue.pqEnqueue Event.time
          (PriorityQueue.pqDequeueD Event.time s.eventPQ)
          (Event.mk2 EventType.DEPARTURE
            (e.time + (Queue.peekD s.bankLine).length))).elements = 1
        rw [countDep_perm (pqEnqueue_perm _ _ _), countDep_append,
          countDep_perm hdperm, hcnt1, countDep_departure_singleton]
      · have hline1 : ¬ (!s1.bankLine.isEmpty) = true := hline
        rw [processDeparture_idle s1 hline1]
        refine ⟨fun _ => ⟨?_, ?_⟩, fun h => absurd h (by simp)⟩
        · show s.bankLine.items = []
          apply (queue_isEmpty_iff s.bankLine).mp
          revert hline
          cases s.bankLine.isEmpty <;> simp
        · show countDep (PriorityQueue.pqDequeueD Event.time s.eventPQ).elements = 0
          rw [countDep_perm hdperm]
          exact hcnt1

theorem simInit_invTeller (pairs : List (ℤ × ℤ)) : InvTeller (simInit pairs) := by
  constructor
  · intro _
    exact ⟨rfl, simInit_countDep pairs⟩
  · intro h
    exact absurd h (by simp [simInit])

theorem reachN_invTeller (pairs : List (ℤ × ℤ)) :
    ∀ (k : ℕ) (s : SimState), reachN pairs k = some s → InvTeller s := by
  intro k
  induction k with
  | zero =>
    intro s hr
    rw [reachN] at hr
    have : s = simInit pairs := (Option.some_inj.mp hr).symm
    rw [this]
    exact simInit_invTeller pairs
  | succ n ih =>
    intro s hr
    rw [reachN] at hr
    cases hprev : reachN pairs n with
    | none => rw [hprev] at hr; exact absurd hr (by simp)
    | some sp =>
      rw [hprev] at hr
      exact simStep_invTeller (ih sp hprev) hr

/-! ### The time invariant is preserved and the counters are monotone -/

theorem pqEnqueue_mem {pq : BinaryHeap Event} {x y : Event}
    (hy : y ∈ (PriorityQueue.pqEnqueue Event.time pq x).elements) :
    y ∈ pq.elements ∨ y = x := by
  have h := (pqEnqueue_perm Event.time pq x).mem_iff.mp hy
  rcases List.mem_append.mp h with h | h
  · exact Or.inl h
  · exact Or.inr (List.mem_singleton.mp h)

theorem simStep_invTime {s s2 : SimState} (hs : InvTime s)
    (hstep : simStep s = some s2) :
    InvTime s2 ∧ s.simulationTime ≤ s2.simulationTime ∧
      s.cumulativeWaitTime ≤ s2.cumulativeWaitTime := by
  cases hel : s.eventPQ.elements with
  | nil =>
    rw [simStep_none hel] at hstep
    exact absurd hstep (by simp)
  | cons e t =>
    rw [simStep_eq_some hel] at hstep
    have hs2 : s2 = _ := (Option.some_inj.mp hstep).symm
    subst hs2
    set s1 : SimState :=
      { s with
        simulationTime := e.time,
        eventLog := s.eventLog ++ [(e.isArrival, e.time)] } with hs1def
    obtain ⟨hdperm, hdheap⟩ := pqDequeueD_spec Event.time s.eventPQ hel
    obtain ⟨hheap, hpq, hlineInv⟩ := hs
    have heheap := hdheap hheap
    have hemem : e ∈ s.eventPQ.elements := by
      rw [hel]
      exact List.mem_cons_self e t
    have hstime : s.simulationTime ≤ e.time := (hpq e hemem).1
    have helen : 0 ≤ e.length := (hpq e hemem).2
    have hroot : ∀ y ∈ s.eventPQ.elements, e.time ≤ y.time := by
      intro y hy
      have h := BinaryHeap.isHeap_head_le Event.time hheap hy
      rwa [BinaryHeap.nthKey, hel, List.getD_cons_zero] at h
    have hpqmem : ∀ y ∈ (PriorityQueue.pqDequeueD Event.time s.eventPQ).elements,
        e.time ≤ y.time ∧ 0 ≤ y.length := by
      intro y hy
      have hyt : y ∈ t := hdperm.mem_iff.mp hy
      have hyel : y ∈ s.eventPQ.elements := by
        rw [hel]
        exact List.mem_cons_of_mem e hyt
      exact ⟨hroot y hyel, (hpq y hyel).2⟩
    by_cases harr : e.isArrival = true
    · rw [if_pos harr]
      by_cases hcond : (s.bankLine.isEmpty && s.tellerAvailable) = true
      · have hcond1 : (s1.bankLine.isEmpty && s1.tellerAvailable) = true := hcond
        rw [processArrival_serve e s1 hcond1]
        refine ⟨⟨?_, ?_, ?_⟩, hstime, le_refl _⟩
        · show BinaryHeap.IsHeap Event.time (PriorityQueue.pqEnqueue Event.time
            (PriorityQueue.pqDequeueD Event.time s.eventPQ)
            (Event.mk2 EventType.DEPARTURE (e.time + e.length))).elements
          exact pqEnqueue_isHeap Event.time _ _ heheap
        · intro y hy
          rcases pqEnqueue_mem hy with h | h
          · exact ⟨(hpqmem y h).1, (hpqmem y h).2⟩
          · subst h
            exact ⟨by show e.time ≤ e.time + e.length; linarith, le_refl 0⟩
        · intro y hy
          have h := hlineInv y hy
          exact ⟨le_trans h.1 hstime, h.2⟩
      · have hcond1 : ¬ (s1.bankLine.isEmpty && s1.tellerAvailable) = true := hcond
        rw [processArrival_wait e s1 hcond1]
        refine ⟨⟨heheap, ?_, ?_⟩, hstime, le_refl _⟩
        · intro y hy
          exact hpqmem y hy
        · intro y hy
          have hy2 : y ∈ s.bankLine.items ++ [e] := hy
          rcases List.mem_append.mp hy2 with h | h
          · have h2 := hlineInv y h
            exact ⟨le_trans h2.1 hstime, h2.2⟩
          · rw [List.mem_singleton.mp h]
            exact ⟨le_refl e.time, helen⟩
    · rw [if_neg harr]
      by_cases hbr : (!s.bankLine.isEmpty) = true
      · have hne : s.bankLine.items ≠ [] := by
          intro hc
          rw [← queue_isEmpty_iff] at hc
          rw [hc] at hbr
          simp at hbr
        obtain ⟨c, rest, hcr⟩ := List.exists_cons_of_ne_nil hne
        have hpk : Queue.peekD s.bankLine = c := peekD_of_cons hcr
        have hdq : (Queue.dequeueD s.bankLine).items = rest := dequeueD_of_cons hcr
        have hcmem : c ∈ s.bankLine.items := by
          rw [hcr]
          exact List.mem_cons_self c rest
        have hct : c.time ≤ s.simulationTime := (hlineInv c hcmem).1
        have hcl : 0 ≤ c.length := (hlineInv c hcmem).2
        have hbr1 : (!s1.bankLine.isEmpty) = true := hbr
        rw [processDeparture_serve s1 hbr1]
        refine ⟨⟨?_, ?_, ?_⟩, hstime, ?_⟩
        · show BinaryHeap.IsHeap Event.time (PriorityQueue.pqEnqueue Event.time
            (PriorityQueue.pqDequeueD Event.time s.eventPQ)
            (Event.mk2 EventType.DEPARTURE
              (e.time + (Queue.peekD s.bankLine).length))).elements
          exact pqEnqueue_isHeap Event.time _ _ heheap
        · intro y hy
          rcases pqEnqueue_mem hy with h | h
          · exact hpqmem y h
          · subst h
            refine ⟨?_, le_refl 0⟩
            show e.time ≤ e.time + (Queue.peekD s.bankLine).length
            rw [hpk]
            linarith
        · intro y hy
          have hy2 : y ∈ (Queue.dequeueD s.bankLine).items := hy
          rw [hdq] at hy2
          have hym : y ∈ s.bankLine.items := by
            rw [hcr]
            exact List.mem_cons_of_mem c hy2
          have h2 := hlineInv y hym
          exact ⟨le_trans h2.1 hstime, h2.2⟩
        · show s.cumulativeWaitTime ≤
            s.cumulativeWaitTime + (e.time - (Queue.peekD s.bankLine).time)
          rw [hpk]
          linarith
      · have hbr1 : ¬ (!s1.bankLine.isEmpty) = true := hbr
        rw [processDeparture_idle s1 hbr1]
        refine ⟨⟨heheap, ?_, ?_⟩, hstime, le_refl _⟩
        · intro y hy
          exact hpqmem y hy
        · intro y hy
          have h2 := hlineInv y hy
          exact ⟨le_trans h2.1 hstime, h2.2⟩

theorem simInit_invTime (pairs : List (ℤ × ℤ))
    (hpairs : ∀ p ∈ pairs, 0 ≤ p.1 ∧ 0 ≤ p.2) : InvTime (simInit pairs) := by
  refine ⟨simInit_isHeap pairs, ?_, ?_⟩
  · intro y hy
    have hy2 := (simInit_perm pairs).mem_iff.mp hy
    obtain ⟨p, hp, hpy⟩ := List.mem_map.mp hy2
    have hbounds := hpairs p hp
    rw [← hpy]
    constructor
    · show (simInit pairs).simulationTime ≤ p.1
      exact hbounds.1
    · show (0 : ℤ) ≤ if EventType.ARRIVAL = EventType.ARRIVAL then p.2 else 0
      simpa using hbounds.2
  · intro y hy
    exact absurd hy (by simp [simInit, Queue.emptyQueue])

theorem reachN_invTime (pairs : List (ℤ × ℤ))
    (hpairs : ∀ p ∈ pairs, 0 ≤ p.1 ∧ 0 ≤ p.2) :
    ∀ (k : ℕ) (s : SimState), reachN pairs k = some s → InvTime s := by
  intro k
  induction k with
  | zero =>
    intro s hr
    rw [reachN] at hr
    have h : s = simInit pairs := (Option.some_inj.mp hr).symm
    rw [h]
    exact simInit_invTime pairs hpairs
  | succ n ih =>
    intro s hr
    rw [reachN] at hr
    cases hprev : reachN pairs n with
    | none => rw [hprev] at hr; exact absurd hr (by simp)
    | some sp =>
      rw [hprev] at hr
      exact (simStep_invTime (ih sp hprev) hr).1


/-! ## Claims about Event -/

/-- Claim C1, counterexample. The claim asserts that the comparison used to
order events breaks equal-time ties arrival-before-departure. The comparisons
the BinaryHeap actually orders events with are `operator<` (`reHeapDown`) and
`operator>` (`reHeapUp`), and both compare by time alone: at time 0 an ARRIVAL
does not compare less than a DEPARTURE, the heap regards the two as
order-equivalent, and consequently a heap holding a DEPARTURE and an ARRIVAL
both at time 0 can yield the DEPARTURE first. -/
theorem c1_counterexample :
    Event.lt (Event.mk2 EventType.ARRIVAL 0) (Event.mk2 EventType.DEPARTURE 0) = false ∧
    Event.gt (Event.mk2 EventType.DEPARTURE 0) (Event.mk2 EventType.ARRIVAL 0) = false ∧
    BinaryHeap.retrieve
      (BinaryHeap.insert Event.time
        (BinaryHeap.insert Event.time (PriorityQueue.pqNew Event)
          (Event.mk2 EventType.DEPARTURE 0))
        (Event.mk2 EventType.ARRIVAL 0)) =
      some (Event.mk2 EventType.DEPARTURE 0) := by
  refine ⟨rfl, rfl, rfl⟩

/-- Claim C1, amended: the tie-break exists only in `operator<=`, which the
heap never consults. For every time `t`: under `operator<=`, Arrival(t)
compares ≤ Departure(t) while Departure(t) does not compare ≤ Arrival(t); but
under `operator<` and `operator>` — the comparisons `BinaryHeap::reHeapDown`
and `BinaryHeap::reHeapUp` use to order events — equal-time Arrival and
Departure events are mutually unordered, so the event queue does not tie-break
equal-time events by kind. -/
theorem c1_amended (t : ℤ) :
    Event.le (Event.mk2 EventType.ARRIVAL t) (Event.mk2 EventType.DEPARTURE t) = true ∧
    Event.le (Event.mk2 EventType.DEPARTURE t) (Event.mk2 EventType.ARRIVAL t) = false ∧
    Event.lt (Event.mk2 EventType.ARRIVAL t) (Event.mk2 EventType.DEPARTURE t) = false ∧
    Event.gt (Event.mk2 EventType.ARRIVAL t) (Event.mk2 EventType.DEPARTURE t) = false := by
  refine ⟨?_, ?_, ?_, ?_⟩ <;> simp [Event.le, Event.lt, Event.gt, Event.mk2]

/-- Claim C3, counterexample. `Event::setType` does not re-enforce the
Arrival-only-length invariant: switching an ARRIVAL of length 5 to DEPARTURE
leaves the stale length 5 behind, so after the setter call the event is a
DEPARTURE whose serviceLength is nonzero. -/
theorem c3_counterexample :
    ((Event.mk3 EventType.ARRIVAL 0 5).setType EventType.DEPARTURE).type =
      EventType.DEPARTURE ∧
    ((Event.mk3 EventType.ARRIVAL 0 5).setType EventType.DEPARTURE).length = 5 := by
  decide

/-- Claim C3, amended: `setTime` leaves both the kind and the length untouched
(so it preserves the invariant), `setLength` establishes the invariant outright
— on a DEPARTURE the requested length is silently coerced to 0 rather than
failing — but `setType` only overwrites the kind, so it does not re-enforce the
invariant when it turns an ARRIVAL with nonzero length into a DEPARTURE. -/
theorem c3_amended (e : Event) (t aLength : ℤ) :
    ((e.setTime t).type = e.type ∧ (e.setTime t).length = e.length) ∧
    Event.LengthInv (e.setLength aLength) ∧
    (e.type = EventType.DEPARTURE → (e.setLength aLength).length = 0) := by
  refine ⟨⟨rfl, rfl⟩, ?_, ?_⟩
  · intro hdep
    simp only [Event.setLength] at hdep ⊢
    cases h : e.type with
    | ARRIVAL => rw [h] at hdep; exact absurd hdep (by decide)
    | DEPARTURE => simp [h]
  · intro hdep
    simp [Event.setLength, hdep]

/-- Claim C3 witness: the amended theorem applied at a concrete DEPARTURE
event, discharging the hypothesis of the coercion clause. -/
theorem c3_witness :
    ((Event.mk2 EventType.DEPARTURE 4).setLength 7).length = 0 :=
  (c3_amended (Event.mk2 EventType.DEPARTURE 4) 0 7).2.2 rfl

/-- Claim C10: the default-constructed `Event` is an ARRIVAL at time 0 with
transaction length 0; in particular it satisfies `isArrival` and the
Arrival-only-length invariant, so default-constructed events always start from
a well-formed Arrival state. -/
theorem c10_default_event :
    Event.defaultEvent.type = EventType.ARRIVAL ∧
    Event.defaultEvent.time = 0 ∧
    Event.defaultEvent.length = 0 ∧
    Event.defaultEvent.isArrival = true ∧
    Event.LengthInv Event.defaultEvent ∧
    (default : Event) = Event.defaultEvent := by
  refine ⟨rfl, rfl, rfl, rfl, ?_, rfl⟩
  intro h
  exact absurd h (by decide)

/-- Claim C7: enqueuing `e1, ..., en` into an (initially empty) FIFO `Queue`
with no interleaved dequeue and then performing `n` peek/dequeue rounds yields
exactly `e1, ..., en` in that order: each `peek` returns the element the
following `dequeue` removes, and the collected sequence equals the enqueued
one. -/
theorem c7_fifo_order {α : Type} (xs : List α) :
    Queue.drainQueue xs.length (xs.foldl Queue.enqueue (Queue.emptyQueue α)) = xs := by
  have h : (xs.foldl Queue.enqueue (Queue.emptyQueue α)).items = xs := by
    simpa [Queue.emptyQueue] using Queue.foldl_enqueue_items xs (Queue.emptyQueue α)
  calc Queue.drainQueue xs.length (xs.foldl Queue.enqueue (Queue.emptyQueue α))
      = Queue.drainQueue (xs.foldl Queue.enqueue (Queue.emptyQueue α)).items.length
          (xs.foldl Queue.enqueue (Queue.emptyQueue α)) := by rw [h]
    _ = xs := by rw [Queue.drainQueue_items, h]
/-! ## The remaining claims -/

/-- Claim C2: for every sequence of insert and remove operations on a
`BinaryHeap` (a remove on an empty heap throws before touching the array, so
only non-empty removes mutate), after each operation every parent slot is ≤
its child slots and the element at index 0 is ≤ every stored element — in the
order the heap maintains with `operator<`/`operator>`, i.e. by key; for the
program's instantiation `ElementType = Event` the key is the event time. -/
theorem c2_heap_invariant {α : Type} [Inhabited α] (key : α → ℤ) (capacity : ℕ)
    (ops : List (HeapOp α)) :
    BinaryHeap.IsHeap key
      (BinaryHeap.applyOps key { elements := [], capacity := capacity } ops).elements ∧
    ∀ i,
      i < (BinaryHeap.applyOps key { elements := [], capacity := capacity }
        ops).elements.length →
      key ((BinaryHeap.applyOps key { elements := [], capacity := capacity }
          ops).elements.getD 0 default) ≤
        key ((BinaryHeap.applyOps key { elements := [], capacity := capacity }
          ops).elements.getD i default) := by
  have hh := BinaryHeap.applyOps_isHeap key ops { elements := [], capacity := capacity }
    (BinaryHeap.isHeap_nil key)
  exact ⟨hh, fun i hi => BinaryHeap.isHeap_root_min key hh i hi⟩

/-- Claim C6: for every multiset of inserted elements — including insertions
past the initial capacity, which double the capacity while `expandHeap` keeps
the live prefix unchanged (a straight prefix copy) and `insert` preserves the
stored multiset — repeatedly calling retrieve then remove until empty yields
exactly the inserted elements, in ascending order of the key the element
comparisons test. -/
theorem c6_growth_preserves_order {α : Type} [Inhabited α] (key : α → ℤ)
    (capacity : ℕ) (xs : List α) :
    (BinaryHeap.drain key (xs.foldl (BinaryHeap.insert key)
      { elements := [], capacity := capacity })).Perm xs ∧
    List.Sorted (fun a b => key a ≤ key b)
      (BinaryHeap.drain key (xs.foldl (BinaryHeap.insert key)
        { elements := [], capacity := capacity })) ∧
    (∀ (h : BinaryHeap α) (x : α), h.elements.length = h.capacity →
      (BinaryHeap.insert key h x).capacity = 2 * h.capacity) ∧
    (∀ h : BinaryHeap α, (BinaryHeap.expandHeap h).elements = h.elements ∧
      (BinaryHeap.expandHeap h).capacity = 2 * h.capacity) ∧
    (∀ (h : BinaryHeap α) (x : α),
      (BinaryHeap.insert key h x).elements.Perm (h.elements ++ [x])) := by
  have hheap := BinaryHeap.foldl_insert_isHeap key xs
    { elements := [], capacity := capacity } (BinaryHeap.isHeap_nil key)
  obtain ⟨hperm, hsorted⟩ := BinaryHeap.drain_spec key _ hheap
  have hfold := BinaryHeap.foldl_insert_perm key xs
    { elements := [], capacity := capacity }
  refine ⟨hperm.trans (by simpa using hfold), hsorted, ?_, ?_, ?_⟩
  · intro h x hfull
    rw [BinaryHeap.insert_capacity, if_pos hfull]
  · intro h
    exact BinaryHeap.expandHeap_spec h
  · intro h x
    exact BinaryHeap.insert_perm key h x

/-- Claim C6 witness: inserting into a full heap (2 elements, capacity 2)
doubles the capacity to 4. -/
theorem c6_witness :
    (BinaryHeap.insert (fun z : ℤ => z)
      { elements := [1, 2], capacity := 2 } 3).capacity = 4 := by
  have h := (c6_growth_preserves_order (fun z : ℤ => z) 2 []).2.2.1
    { elements := [1, 2], capacity := 2 } 3 rfl
  simpa using h

/-- Claim C4: on an empty `BinaryHeap`, `PriorityQueue` or FIFO `Queue`, the
fallible operations (`remove`/`retrieve`, `dequeue`/`peek`, `dequeue`/`peek`)
all raise `EmptyDataCollectionException` (embedded as `none`); the throw
happens before any mutation, so the failed call leaves the structure exactly
as it was (the `…D` total variants return it unchanged). -/
theorem c4_empty_collection (b : BinaryHeap Event) (q : Queue Event) :
    (BinaryHeap.getElementCount b = 0 →
      BinaryHeap.remove Event.time b = none ∧
      BinaryHeap.retrieve b = none ∧
      BinaryHeap.removeD Event.time b = b ∧
      PriorityQueue.pqDequeue Event.time b = none ∧
      PriorityQueue.pqPeek b = none ∧
      PriorityQueue.pqDequeueD Event.time b = b) ∧
    (q.isEmpty = true →
      q.dequeue = none ∧ q.peek = none ∧ q.dequeueD = q) := by
  constructor
  · intro h0
    have hlen : b.elements.length = 0 := h0
    have hempty : PriorityQueue.pqIsEmpty b = true := by
      simp [PriorityQueue.pqIsEmpty, BinaryHeap.getElementCount, hlen]
    have hrem : BinaryHeap.remove Event.time b = none := by
      unfold BinaryHeap.remove
      rw [if_pos hlen]
    have hpqd : PriorityQueue.pqDequeue Event.time b = none := by
      unfold PriorityQueue.pqDequeue
      rw [if_pos hempty]
    refine ⟨hrem, ?_, ?_, hpqd, ?_, ?_⟩
    · unfold BinaryHeap.retrieve
      rw [if_pos hlen]
    · unfold BinaryHeap.removeD
      rw [hrem]
    · unfold PriorityQueue.pqPeek
      rw [if_pos hempty]
    · unfold PriorityQueue.pqDequeueD
      rw [hpqd]
  · intro hq
    have hdq : q.dequeue = none := by
      unfold Queue.dequeue
      rw [if_pos hq]
    refine ⟨hdq, ?_, ?_⟩
    · unfold Queue.peek
      rw [if_pos hq]
    · unfold Queue.dequeueD
      rw [hdq]

/-- Claim C4 witness: the theorem applied to the freshly constructed (empty)
priority queue and FIFO queue. -/
theorem c4_witness :
    BinaryHeap.remove Event.time (PriorityQueue.pqNew Event) = none ∧
    PriorityQueue.pqDequeueD Event.time (PriorityQueue.pqNew Event) =
      PriorityQueue.pqNew Event ∧
    (Queue.emptyQueue Event).dequeue = none :=
  ⟨((c4_empty_collection (PriorityQueue.pqNew Event) (Queue.emptyQueue Event)).1 rfl).1,
   ((c4_empty_collection (PriorityQueue.pqNew Event)
      (Queue.emptyQueue Event)).1 rfl).2.2.2.2.2,
   ((c4_empty_collection (PriorityQueue.pqNew Event) (Queue.emptyQueue Event)).2 rfl).1⟩

/-- Claim C5: on input pairs (0,10) and (2,3), customer A is served
immediately at time 0 (arrival processed at time 0, departure at 10);
customer B arrives at 2 while the teller is busy and waits in the line (state
after two events: B alone in the line, nothing accumulated, teller busy); at
time 10 B is pulled from the line with waitTime 10 − 2 = 8 and its departure
is scheduled at 13 (state after three events); the run ends with
customerCount = 2, cumulativeWaitTime = 8 and averageWaitTime = 4. -/
theorem c5_end_to_end_scenario :
    (reachN [(0, 10), (2, 3)] 2).map
        (fun s => (s.bankLine.items, s.cumulativeWaitTime, s.tellerAvailable)) =
      some ([Event.mk3 EventType.ARRIVAL 2 3], 0, false) ∧
    (reachN [(0, 10), (2, 3)] 3).map
        (fun s => (s.bankLine.items, s.cumulativeWaitTime, s.eventPQ.elements)) =
      some ([], 8, [Event.mk2 EventType.DEPARTURE 13]) ∧
    (simRun 10 (simInit [(0, 10), (2, 3)])).eventLog =
      [(true, 0), (true, 2), (false, 10), (false, 13)] ∧
    (simRun 10 (simInit [(0, 10), (2, 3)])).customerCount = 2 ∧
    (simRun 10 (simInit [(0, 10), (2, 3)])).cumulativeWaitTime = 8 ∧
    averageWaitTime (simRun 10 (simInit [(0, 10), (2, 3)])) = 4 := by
  refine ⟨rfl, rfl, rfl, rfl, rfl, ?_⟩
  have h1 : (simRun 10 (simInit [(0, 10), (2, 3)])).cumulativeWaitTime = 8 := rfl
  have h2 : (simRun 10 (simInit [(0, 10), (2, 3)])).customerCount = 2 := rfl
  unfold averageWaitTime
  rw [h1, h2]
  norm_num

/-- Claim C8: in every reachable state of the simulation loop (any input,
any number of processed events), the teller is available exactly when the
waiting line is empty and no customer is in service — a customer being in
service is witnessed by the one pending DEPARTURE event in the event queue,
so "no customer in service" is `countDep … = 0`. -/
theorem c8_teller_iff_idle (pairs : List (ℤ × ℤ)) (k : ℕ) (s : SimState)
    (hr : reachN pairs k = some s) :
    s.tellerAvailable = true ↔
      (s.bankLine.items = [] ∧ countDep s.eventPQ.elements = 0) := by
  have hinv := reachN_invTeller pairs k s hr
  constructor
  · exact hinv.1
  · intro h
    cases ht : s.tellerAvailable
    · have h1 := hinv.2 ht
      rw [h.2] at h1
      exact absurd h1 (by decide)
    · rfl

/-- Claim C8 witness: the theorem applied to the initial state of the empty
input. -/
theorem c8_witness :
    (simInit []).tellerAvailable = true ↔
      ((simInit []).bankLine.items = [] ∧ countDep (simInit []).eventPQ.elements = 0) :=
  c8_teller_iff_idle [] 0 (simInit []) rfl

/-- Claim C9: for every input whose arrival times and service lengths are
non-negative, `simulationTime` never decreases from one processed event to
the next, and `cumulativeWaitTime` never decreases (each added waitTime is
non-negative). -/
theorem c9_monotone_counters (pairs : List (ℤ × ℤ)) (k : ℕ) (s s2 : SimState)
    (hpairs : ∀ p ∈ pairs, 0 ≤ p.1 ∧ 0 ≤ p.2)
    (hr : reachN pairs k = some s) (hstep : simStep s = some s2) :
    s.simulationTime ≤ s2.simulationTime ∧
      s.cumulativeWaitTime ≤ s2.cumulativeWaitTime :=
  (simStep_invTime (reachN_invTime pairs hpairs k s hr) hstep).2

/-- Claim C9 witness: the first step of the (0,10),(2,3) run. -/
theorem c9_witness :
    (simInit [((0 : ℤ), (10 : ℤ)), ((2 : ℤ), (3 : ℤ))]).simulationTime ≤
      (SimState.mk (Queue.mk [])
        (BinaryHeap.mk [Event.mk3 EventType.ARRIVAL 2 3, Event.mk2 EventType.DEPARTURE 10] 2)
        false 0 0 2 [(true, 0)]).simulationTime ∧
    (simInit [((0 : ℤ), (10 : ℤ)), ((2 : ℤ), (3 : ℤ))]).cumulativeWaitTime ≤
      (SimState.mk (Queue.mk [])
        (BinaryHeap.mk [Event.mk3 EventType.ARRIVAL 2 3, Event.mk2 EventType.DEPARTURE 10] 2)
        false 0 0 2 [(true, 0)]).cumulativeWaitTime :=
  c9_monotone_counters [((0 : ℤ), (10 : ℤ)), ((2 : ℤ), (3 : ℤ))] 0 _ _ (by decide) rfl rfl
